import Mathlib

/-!
Verification development for the contextual completion engine in
`crates/tinymist-query/src/upstream/complete/ext.rs`.

The Rust source is shallowly embedded below: the syntax tree is a zipper
(node plus a stack of frames recording previous/following siblings and the
parent's data), external collaborators (import resolver, callee resolver,
signature introspector, type-directed value suggester, font enumerator,
docs renderer) are fields of the `World`/`CompletionContext` records, and
the three entry points `scope_completions_`, `param_completions` and
`named_param_value_completions` are translated statement by statement.
-/

namespace TinyComplete

/-- Completion kinds used by the engine (`CompletionKind` in the source);
`Type_` stands for the source's `Type` variant. -/
inductive CompletionKind where
  | Func
  | Variable
  | Module
  | Type_
  | Constant
  | Param
  deriving DecidableEq

/-- Syntax node kinds that the engine inspects.  The four composite kinds
mirror the AST casts performed by the source; the remaining kinds are plain
token/expression kinds appearing near the cursor. -/
inductive SyntaxKind where
  | LetBinding
  | ModuleImport
  | ForLoop
  | Closure
  | In
  | Equation
  | Math
  | MathFrac
  | MathAttach
  | Ident
  | Str
  | Code
  | CodeBlock
  | Markup
  | Semicolon
  | Params
  | For
  deriving DecidableEq

/-- Whether a kind casts to `ast::Expr` (used by the import branch to find
the import's source sub-expression among the children). -/
def SyntaxKind.isExpr : SyntaxKind → Bool
  | .LetBinding => true
  | .ModuleImport => true
  | .ForLoop => true
  | .Closure => true
  | .Ident => true
  | .Str => true
  | .CodeBlock => true
  | _ => false

/-- A binding pattern (`ast::Pattern`); `bindings` lists the identifiers it
binds, as `Pattern::bindings()` does. -/
structure Pattern where
  bindings : List String
  deriving DecidableEq

/-- `ast::LetBindingKind`: a closure declaration `let f(..) = ..` carries the
single declared name, a normal declaration carries a pattern. -/
inductive LetBindingKind where
  | closureKind (name : String)
  | normal (pat : Pattern)
  deriving DecidableEq

/-- `LetBindingKind::bindings()`. -/
def LetBindingKind.bindings : LetBindingKind → List String
  | .closureKind name => [name]
  | .normal pat => pat.bindings

/-- The AST view of a let binding (`ast::LetBinding`). -/
structure LetBinding where
  kind : LetBindingKind
  deriving DecidableEq

/-- `ast::Imports`: wildcard or an explicit item list; the engine only tests
presence. -/
inductive Imports where
  | wildcard
  | items
  deriving DecidableEq

/-- The AST view of a module import (`ast::ModuleImport`). -/
structure ModuleImport where
  imports : Option Imports
  deriving DecidableEq

/-- The AST view of a for loop (`ast::ForLoop`): its binding pattern. -/
structure ForLoop where
  pattern : Pattern
  deriving DecidableEq

/-- A closure parameter (`ast::Param`): positional pattern, named default, or
spread with an optional sink identifier. -/
inductive Param where
  | pos (pat : Pattern)
  | named (name : String)
  | spread (sinkIdent : Option String)
  deriving DecidableEq

/-- The AST view of a closure (`ast::Closure`): its parameter list. -/
structure Closure where
  params : List Param
  deriving DecidableEq

/-- The data carried by a syntax node: one of the four casts the collector
attempts, or a plain kind. -/
inductive NodeData where
  | letBinding (v : LetBinding)
  | moduleImport (v : ModuleImport)
  | forLoop (v : ForLoop)
  | closure (v : Closure)
  | plain (k : SyntaxKind)
  deriving DecidableEq

/-- The `SyntaxKind` of a node's data. -/
def NodeData.kind : NodeData → SyntaxKind
  | .letBinding _ => .LetBinding
  | .moduleImport _ => .ModuleImport
  | .forLoop _ => .ForLoop
  | .closure _ => .Closure
  | .plain k => k

/-- A syntax node: its data and its children in textual order. -/
inductive Node where
  | mk (data : NodeData) (children : List Node)

/-- The data of a node. -/
def Node.data : Node → NodeData
  | .mk d _ => d

/-- The children of a node. -/
def Node.children : Node → List Node
  | .mk _ c => c

/-- The kind of a node. -/
def Node.kind (n : Node) : SyntaxKind := n.data.kind

/-- One zipper frame: the previous siblings of the focused node (nearest
first), the parent's data, and the following siblings (nearest first). -/
structure Frame where
  before : List Node
  data : NodeData
  after : List Node

/-- A `LinkedNode`: the focused node together with the path to the root. -/
structure LinkedNode where
  node : Node
  path : List Frame

/-- Reconstruct the parent node of a focused node from its frame. -/
def parentNode (f : Frame) (n : Node) : Node :=
  .mk f.data (f.before.reverse ++ n :: f.after)

/-- `LinkedNode::parent_kind()`: the kind of the parent node, if any. -/
def LinkedNode.parentKind : LinkedNode → Option SyntaxKind
  | ⟨_, []⟩ => none
  | ⟨_, f :: _⟩ => some f.data.kind

/-- The kind of the focused node's previous sibling, as
`LinkedNode::prev_sibling_kind()` reports it (trees here carry no trivia
nodes, so plain previous-sibling access coincides with the source's
trivia-skipping access). -/
def prevSiblingKind : List Frame → Option SyntaxKind
  | [] => none
  | f :: _ => f.before.head?.map Node.kind

/-- A dynamic function value (`typst::foundations::Func`): either a base
function or a `Repr::With` partial-application wrapper around an inner one. -/
inductive Func where
  | base (id : Nat)
  | withF (inner : Func)
  deriving DecidableEq

/-- A runtime value (`typst::foundations::Value`), restricted to the
categories the engine distinguishes. -/
inductive Value where
  | func (f : Func)
  | module (name : String) (scope : List (String × Value))
  | type_ (name : String)
  | int (i : Int)
  | str (s : String)
  | none_

/-- `Value::name()`: the intrinsic name of a module or type value. -/
def Value.name : Value → Option String
  | .module n _ => some n
  | .type_ n => some n
  | _ => none

/-- `Value::scope()`: the exported scope of a module value. -/
def Value.scope : Value → Option (List (String × Value))
  | .module _ s => some s
  | _ => none

/-- The external world: the import resolver and the two builtin scopes of the
standard library. -/
structure World where
  analyzeImport : Node → Option Value
  mathScope : List (String × Value)
  globalScope : List (String × Value)

/-- The collector's name map, kept sorted by key exactly as Rust's
`BTreeMap<EcoString, CompletionKind>` iterates it. -/
abbrev DefMap := List (String × CompletionKind)

/-- Look a name up in the map. -/
def defLookup : DefMap → String → Option CompletionKind
  | [], _ => none
  | (k, v) :: rest, name => if name = k then some v else defLookup rest name

/-- Whether the map contains a name (`BTreeMap::contains_key`). -/
def defContains (m : DefMap) (name : String) : Bool :=
  (defLookup m name).isSome

/-- Ordered insertion that keeps an existing entry, mirroring the
`Entry::Vacant` pattern on a `BTreeMap`: only a vacant slot is written. -/
def insertIfAbsent (name : String) (kind : CompletionKind) : DefMap → DefMap
  | [] => [(name, kind)]
  | (k, v) :: rest =>
    if name = k then (k, v) :: rest
    else if name < k then (name, kind) :: (k, v) :: rest
    else (k, v) :: insertIfAbsent name kind rest

/-- The source's `try_insert` closure: skip empty names, then insert only if
the name is absent. -/
def tryInsert (m : DefMap) (name : String) (kind : CompletionKind) : DefMap :=
  if name = "" then m else insertIfAbsent name kind m

/-- The let-binding arm of the sibling loop: record each bound identifier,
as `Func` for a closure declaration and `Variable` otherwise. -/
def collectLetBinding (m : DefMap) (v : LetBinding) : DefMap :=
  let kind := match v.kind with
    | .closureKind _ => CompletionKind.Func
    | .normal _ => CompletionKind.Variable
  v.kind.bindings.foldl (fun m ident => tryInsert m ident kind) m

/-- Completion kind assigned to an imported value, per the classification
switch in the import arm. -/
def importKindOf : Value → CompletionKind
  | .func _ => .Func
  | .module _ _ => .Module
  | .type_ _ => .Type_
  | _ => .Constant

/-- The module-import arm of the sibling loop: resolve the import source via
the external resolver; on failure record nothing; otherwise record the
module's own name (no import list) or every exported name (import list). -/
def collectModuleImport (w : World) (m : DefMap) (v : ModuleImport)
    (children : List Node) : DefMap :=
  match (children.find? fun c => c.kind.isExpr).bind w.analyzeImport with
  | none => m
  | some value =>
    if v.imports.isNone then
      match value.name with
      | some name => tryInsert m name .Module
      | none => m
    else
      match value.scope with
      | some scope => scope.foldl (fun m p => tryInsert m p.1 (importKindOf p.2)) m
      | none => m

/-- One step of the sibling loop: attempt the let-binding cast, then the
module-import cast, on the visited node. -/
def collectNode (w : World) (m : DefMap) (n : Node) : DefMap :=
  let m := match n.data with
    | .letBinding v => collectLetBinding m v
    | _ => m
  match n.data with
  | .moduleImport v => collectModuleImport w m v n.children
  | _ => m

/-- The for-loop check of the ascent: if the parent is a for loop and the
current ancestor's previous sibling is not the `in` keyword, record every
identifier of the loop pattern as `Variable`. -/
def collectForLoop (f : Frame) (m : DefMap) : DefMap :=
  match f.data with
  | .forLoop v =>
    if (f.before.head?.map Node.kind) ≠ some SyntaxKind.In then
      v.pattern.bindings.foldl (fun m i => tryInsert m i .Variable) m
    else m
  | _ => m

/-- The closure check of the ascent: when the current ancestor casts to a
closure, record every parameter identifier as `Variable`. -/
def collectClosureParams (node : Node) (m : DefMap) : DefMap :=
  match node.data with
  | .closure c =>
    c.params.foldl (fun m p =>
      match p with
      | .pos pat => pat.bindings.foldl (fun m i => tryInsert m i .Variable) m
      | .named n => tryInsert m n .Variable
      | .spread (some sink) => tryInsert m sink .Variable
      | .spread none => m) m
  | _ => m

/-- The dual-cursor ascent of `scope_completions_` (lines 32-112): at each
ancestor, walk the previous siblings (the ancestor itself first), then, when
a parent exists, run the for-loop and closure checks and ascend; at the root
the sibling walk runs and the loop breaks. -/
def ascent (w : World) : List Frame → Node → DefMap → DefMap
  | [], node, m => collectNode w m node
  | f :: rest, node, m =>
    let m := (node :: f.before).foldl (collectNode w) m
    let m := collectForLoop f m
    let m := collectClosureParams node m
    ascent w rest (parentNode f node) m

/-- The complete Binding Collector: run the ascent from the cursor leaf with
an empty map. -/
def scopeDefined (w : World) (leaf : LinkedNode) : DefMap :=
  ascent w leaf.path leaf.node []

/-- A completion entry, the unit returned to the editor. -/
structure Completion where
  kind : CompletionKind
  label : String
  apply : Option String
  detail : Option String
  command : Option String
  deriving DecidableEq

/-- An opaque type descriptor handed to the type-directed value suggester
(the `CastInfo` of a parameter). -/
structure CastInfo where
  tyid : Nat
  deriving DecidableEq

/-- A parameter descriptor of a resolved signature (`ParamSpec`). -/
structure ParamSpec where
  name : String
  docs : String
  positional : Bool
  named : Bool
  settable : Bool
  expr : Option String
  input : CastInfo
  deriving DecidableEq

/-- The keyed named-parameter collection of the primary signature. -/
structure PrimarySignature where
  named : List (String × ParamSpec)
  deriving DecidableEq

/-- A resolved function signature; `primary` is its primary variant. -/
structure Signature where
  primary : PrimarySignature
  deriving DecidableEq

/-- Keyed lookup in the named-parameter collection
(`primary_sig.named.get(name)`). -/
def namedGet (l : List (String × ParamSpec)) (name : String) : Option ParamSpec :=
  (l.find? fun p => p.1 == name).map (·.2)

/-- The completion context: the cursor leaf, the world, the text before the
cursor, the result buffer, and the external collaborators (value-derived
completion shaping, callee resolution composed with the span re-find,
signature introspection, type-directed value suggestion, font enumeration,
docs rendering). -/
structure CompletionContext where
  leaf : LinkedNode
  world : World
  before : String
  completions : List Completion
  valueCompletion : Option String → Value → Bool → Option String → List Completion
  resolveCallee : Node → Option Func
  analyzeDynSignature : Func → Signature
  castCompletions : CastInfo → List Completion
  fontCompletions : List Completion
  plainDocsSentence : String → String

/-- Modelled from the spec: the upstream helper `CompletionContext::enrich`
is not among the provided sources; per the spec it requests insertion of the
given surrounding text (a single trailing space after a comma or colon),
realised here by wrapping each buffered entry's insertion text — the `apply`
template when present, the label otherwise — in the prefix/suffix pair. -/
def enrichList (pre suf : String) (cs : List Completion) : List Completion :=
  cs.map fun c => { c with apply := some (pre ++ (c.apply.getD c.label) ++ suf) }

/-- Whether the cursor's parent kind is one of the specialized math sub-tree
kinds (the `in_math` test of `scope_completions_`, lines 114-120). -/
def isMathKindOpt : Option SyntaxKind → Bool
  | some .Equation => true
  | some .Math => true
  | some .MathFrac => true
  | some .MathAttach => true
  | _ => false

/-- The local-binding entry pushed for one collected `(name, kind)` pair:
functions get an empty-call apply template and the suggest-retrigger
command, everything else a plain entry. -/
def mkDefinedEntry (p : String × CompletionKind) : Completion :=
  if p.2 = CompletionKind.Func then
    { kind := p.2, label := p.1, apply := some (p.1 ++ "($\x7b\x7d)"),
      detail := none, command := some "editor.action.triggerSuggest" }
  else
    { kind := p.2, label := p.1, apply := none, detail := none, command := none }

/-- The builtin-scope loop of `scope_completions_` (lines 126-130): for each
scope entry passing the filter and not shadowed by a local binding, append
the value-derived completion entries. -/
def builtinEntries (ctx : CompletionContext) (scope : List (String × Value))
    (parens : Bool) (filter : Value → Bool) (defined : DefMap) : List Completion :=
  scope.foldl (fun acc p =>
    if filter p.2 && !(defContains defined p.1) then
      acc ++ ctx.valueCompletion (some p.1) p.2 parens none
    else acc) []

/-- The local-binding loop of `scope_completions_` (lines 132-155): emit one
entry per collected binding with a non-empty name, in map order. -/
def definedEntries (defined : DefMap) : List Completion :=
  defined.foldl (fun acc p =>
    if p.1 ≠ "" then acc ++ [mkDefinedEntry p] else acc) []

/-- The Completion Assembler `scope_completions_`: collect local bindings by
ascent, pick the builtin scope by the math test, then append the builtin
entries followed by the local-binding entries. -/
def scope_completions_ (ctx : CompletionContext) (parens : Bool)
    (filter : Value → Bool) : CompletionContext :=
  let defined := scopeDefined ctx.world ctx.leaf
  let in_math := isMathKindOpt ctx.leaf.parentKind
  let scope := if in_math then ctx.world.mathScope else ctx.world.globalScope
  { ctx with completions := ctx.completions
      ++ builtinEntries ctx scope parens filter defined
      ++ definedEntries defined }

/-- An argument at the call site (`ast::Arg`). -/
inductive Arg where
  | pos
  | named (name : String)
  | spread
  deriving DecidableEq

/-- The call-site argument list (`ast::Args`). -/
structure Args where
  items : List Arg
  deriving DecidableEq

/-- Names already passed as named arguments (the `exclude` vector of
`param_completions`). -/
def excludedNames (args : Args) : List String :=
  args.items.filterMap fun a => match a with
    | .named n => some n
    | _ => none

/-- The `Repr::With` unwrapping loop shared by both engines: peel every
partial-application wrapper until the base function remains. -/
def unwrapFunc : Func → Func
  | .withF f => unwrapFunc f
  | .base i => .base i

/-- The `Parameter`-kind entry pushed for a named parameter: a
`"name: "`-plus-placeholder apply template, plain-sentence docs, and the
suggest-retrigger command. -/
def paramEntry (ctx : CompletionContext) (p : ParamSpec) : Completion :=
  { kind := .Param, label := p.name, apply := some (p.name ++ ": $\x7b\x7d"),
    detail := some (ctx.plainDocsSentence p.docs),
    command := some "editor.action.triggerSuggest" }

/-- The named-parameter loop of `param_completions` (lines 195-223): skip
already-passed names and non-settable parameters in set context, then emit
the `Parameter` entry for named parameters and delegate positional ones to
the type-directed value suggester. -/
def paramLoopEntries (ctx : CompletionContext) (set : Bool)
    (exclude : List String) (named : List (String × ParamSpec)) : List Completion :=
  named.foldl (fun acc p =>
    if exclude.any fun i => i == p.1 then acc
    else if set && !p.2.settable then acc
    else
      let acc := if p.2.named then acc ++ [paramEntry ctx p.2] else acc
      if p.2.positional then acc ++ ctx.castCompletions p.2.input else acc) []

/-- The body of `param_completions` after callee resolution succeeded: peel
wrappers, introspect the signature, run the named-parameter loop, then apply
the trailing-space aid when the text before the cursor ends with a comma. -/
def paramCompletionsResolved (ctx : CompletionContext) (func : Func)
    (set : Bool) (args : Args) : CompletionContext :=
  let func := unwrapFunc func
  let signature := ctx.analyzeDynSignature func
  let exclude := excludedNames args
  let base := ctx.completions ++ paramLoopEntries ctx set exclude signature.primary.named
  let ctx' := { ctx with completions := base }
  if ctx'.before.endsWith "," then
    { ctx' with completions := enrichList " " "" ctx'.completions }
  else ctx'

/-- The Parameter Completion Engine `param_completions`: resolve the callee;
on failure return with the buffer untouched, otherwise run the resolved
body. -/
def param_completions (ctx : CompletionContext) (callee : Node) (set : Bool)
    (args : Args) : CompletionContext :=
  match ctx.resolveCallee callee with
  | none => ctx
  | some func => paramCompletionsResolved ctx func set args

/-- The body of `named_param_value_completions` after callee resolution
succeeded: peel wrappers, look the requested parameter up by name, bail out
silently when it is missing or not named, otherwise emit the example
constant (when present), delegate to the type-directed value suggester,
route the reserved font parameter to the font enumerator, and apply the
trailing-space aid after a colon. -/
def namedParamValueResolved (ctx : CompletionContext) (func : Func)
    (name : String) : CompletionContext :=
  let func := unwrapFunc func
  let signature := ctx.analyzeDynSignature func
  match namedGet signature.primary.named name with
  | none => ctx
  | some param =>
    if !param.named then ctx
    else
      let ctx' := { ctx with completions := ctx.completions
        ++ (match param.expr with
            | some expr =>
              [({ kind := .Constant, label := expr, apply := none,
                  detail := some (ctx.plainDocsSentence param.docs),
                  command := none } : Completion)]
            | none => [])
        ++ ctx.castCompletions param.input
        ++ (if name == "font" then ctx.fontCompletions else []) }
      if ctx'.before.endsWith ":" then
        { ctx' with completions := enrichList " " "" ctx'.completions }
      else ctx'

/-- The Named-Value Completion Engine `named_param_value_completions`:
resolve the callee; on failure return with the buffer untouched, otherwise
run the resolved body. -/
def named_param_value_completions (ctx : CompletionContext) (callee : Node)
    (name : String) : CompletionContext :=
  match ctx.resolveCallee callee with
  | none => ctx
  | some func => namedParamValueResolved ctx func name

/-! ### Lemmas about the ordered name map -/

/-- The collector map is sorted strictly by key, as a `BTreeMap` is. -/
abbrev SortedKeys (m : DefMap) : Prop := List.Pairwise (fun a b => a.1 < b.1) m

theorem mem_insertIfAbsent {name : String} {kind : CompletionKind} :
    ∀ {m : DefMap} {p : String × CompletionKind},
      p ∈ insertIfAbsent name kind m → p = (name, kind) ∨ p ∈ m := by
  intro m
  induction m with
  | nil =>
    intro p hp
    simp only [insertIfAbsent, List.mem_singleton] at hp
    exact Or.inl hp
  | cons hd tl ih =>
    obtain ⟨k, v⟩ := hd
    intro p hp
    simp only [insertIfAbsent] at hp
    by_cases h1 : name = k
    · rw [if_pos h1] at hp
      exact Or.inr hp
    · rw [if_neg h1] at hp
      by_cases h2 : name < k
      · rw [if_pos h2] at hp
        rcases List.mem_cons.mp hp with h | h
        · exact Or.inl h
        · exact Or.inr h
      · rw [if_neg h2] at hp
        rcases List.mem_cons.mp hp with h | h
        · exact Or.inr (List.mem_cons.mpr (Or.inl h))
        · rcases ih h with h' | h'
          · exact Or.inl h'
          · exact Or.inr (List.mem_cons.mpr (Or.inr h'))

theorem mem_of_defLookup {name : String} {k : CompletionKind} :
    ∀ {m : DefMap}, defLookup m name = some k → (name, k) ∈ m := by
  intro m
  induction m with
  | nil => intro h; simp [defLookup] at h
  | cons hd tl ih =>
    obtain ⟨k₀, v⟩ := hd
    intro h
    simp only [defLookup] at h
    by_cases he : name = k₀
    · rw [if_pos he] at h
      obtain rfl : v = k := by injection h
      exact List.mem_cons.mpr (Or.inl (by rw [he]))
    · rw [if_neg he] at h
      exact List.mem_cons.mpr (Or.inr (ih h))

theorem lookup_insertIfAbsent_other {name i : String} {kind : CompletionKind}
    (hne : name ≠ i) :
    ∀ m : DefMap, defLookup (insertIfAbsent i kind m) name = defLookup m name := by
  intro m
  induction m with
  | nil => simp [insertIfAbsent, defLookup, hne]
  | cons hd tl ih =>
    obtain ⟨k, v⟩ := hd
    simp only [insertIfAbsent]
    by_cases h1 : i = k
    · rw [if_pos h1]
    · rw [if_neg h1]
      by_cases h2 : i < k
      · rw [if_pos h2]
        simp only [defLookup, if_neg hne]
      · rw [if_neg h2]
        simp only [defLookup]
        by_cases h3 : name = k
        · rw [if_pos h3, if_pos h3]
        · rw [if_neg h3, if_neg h3, ih]

theorem lookup_insertIfAbsent_fresh {name : String} {kind : CompletionKind} :
    ∀ {m : DefMap}, defLookup m name = none →
      defLookup (insertIfAbsent name kind m) name = some kind := by
  intro m
  induction m with
  | nil => intro _; simp [insertIfAbsent, defLookup]
  | cons hd tl ih =>
    obtain ⟨k, v⟩ := hd
    intro h
    simp only [defLookup] at h
    by_cases he : name = k
    · rw [if_pos he] at h
      exact absurd h (by simp)
    · rw [if_neg he] at h
      simp only [insertIfAbsent, if_neg he]
      by_cases h2 : name < k
      · rw [if_pos h2]
        simp [defLookup]
      · rw [if_neg h2]
        simp only [defLookup, if_neg he]
        exact ih h

theorem insertIfAbsent_of_mem {i : String} {kind : CompletionKind} :
    ∀ {m : DefMap}, SortedKeys m → defContains m i = true →
      insertIfAbsent i kind m = m := by
  intro m
  induction m with
  | nil => intro _ h; simp [defContains, defLookup] at h
  | cons hd tl ih =>
    obtain ⟨k, v⟩ := hd
    intro hs hc
    obtain ⟨hall, htl⟩ := List.pairwise_cons.mp hs
    simp only [insertIfAbsent]
    by_cases h1 : i = k
    · rw [if_pos h1]
    · rw [if_neg h1]
      simp only [defContains, defLookup, if_neg h1] at hc
      obtain ⟨k', hk'⟩ := Option.isSome_iff_exists.mp hc
      have hmem := mem_of_defLookup hk'
      have hki : k < i := hall _ hmem
      by_cases h2 : i < k
      · exact absurd (lt_trans h2 hki) (lt_irrefl i)
      · rw [if_neg h2]
        rw [ih htl (by simp [defContains, hk'])]

theorem lookup_insertIfAbsent_present {name i : String} {kind k : CompletionKind}
    {m : DefMap} (hs : SortedKeys m) (h : defLookup m name = some k) :
    defLookup (insertIfAbsent i kind m) name = some k := by
  by_cases hne : name = i
  · subst hne
    rw [insertIfAbsent_of_mem hs (by simp [defContains, h])]
    exact h
  · rw [lookup_insertIfAbsent_other hne]
    exact h

theorem sorted_insertIfAbsent {name : String} {kind : CompletionKind} :
    ∀ {m : DefMap}, SortedKeys m → SortedKeys (insertIfAbsent name kind m) := by
  intro m
  induction m with
  | nil => intro _; exact List.pairwise_singleton _ _
  | cons hd tl ih =>
    obtain ⟨k, v⟩ := hd
    intro hs
    obtain ⟨hall, htl⟩ := List.pairwise_cons.mp hs
    simp only [insertIfAbsent]
    by_cases h1 : name = k
    · rw [if_pos h1]
      exact List.Pairwise.cons hall htl
    · rw [if_neg h1]
      by_cases h2 : name < k
      · rw [if_pos h2]
        refine List.Pairwise.cons ?_ (List.Pairwise.cons hall htl)
        intro p hp
        rcases List.mem_cons.mp hp with rfl | hptl
        · exact h2
        · exact lt_trans h2 (hall p hptl)
      · rw [if_neg h2]
        refine List.Pairwise.cons ?_ (ih htl)
        intro p hp
        rcases mem_insertIfAbsent hp with rfl | hptl
        · rcases lt_trichotomy name k with h | h | h
          · exact absurd h h2
          · exact absurd h h1
          · exact h
        · exact hall p hptl

theorem contains_insertIfAbsent_self {i : String} {kind : CompletionKind} :
    ∀ m : DefMap, defContains (insertIfAbsent i kind m) i = true := by
  intro m
  induction m with
  | nil => simp [insertIfAbsent, defContains, defLookup]
  | cons hd tl ih =>
    obtain ⟨k, v⟩ := hd
    simp only [insertIfAbsent]
    by_cases h1 : i = k
    · rw [if_pos h1]
      simp [defContains, defLookup, h1]
    · rw [if_neg h1]
      by_cases h2 : i < k
      · rw [if_pos h2]
        simp [defContains, defLookup]
      · rw [if_neg h2]
        simpa [defContains, defLookup, if_neg h1] using ih

theorem sorted_tryInsert {name : String} {kind : CompletionKind} {m : DefMap}
    (hs : SortedKeys m) : SortedKeys (tryInsert m name kind) := by
  unfold tryInsert
  by_cases h : name = ""
  · rw [if_pos h]; exact hs
  · rw [if_neg h]; exact sorted_insertIfAbsent hs

theorem lookup_tryInsert_present {name i : String} {kind k : CompletionKind}
    {m : DefMap} (hs : SortedKeys m) (h : defLookup m name = some k) :
    defLookup (tryInsert m i kind) name = some k := by
  unfold tryInsert
  by_cases he : i = ""
  · rw [if_pos he]; exact h
  · rw [if_neg he]; exact lookup_insertIfAbsent_present hs h

theorem contains_tryInsert_mono {name i : String} {kind : CompletionKind}
    {m : DefMap} (h : defContains m name = true) :
    defContains (tryInsert m i kind) name = true := by
  unfold tryInsert
  by_cases he : i = ""
  · rw [if_pos he]; exact h
  · rw [if_neg he]
    by_cases hne : name = i
    · subst hne; exact contains_insertIfAbsent_self m
    · simpa [defContains, lookup_insertIfAbsent_other hne] using h

theorem contains_tryInsert_self {name : String} {kind : CompletionKind}
    {m : DefMap} (hne : name ≠ "") :
    defContains (tryInsert m name kind) name = true := by
  unfold tryInsert
  rw [if_neg hne]
  exact contains_insertIfAbsent_self m

theorem contains_tryInsert_other {name i : String} {kind : CompletionKind}
    {m : DefMap} (hne : name ≠ i) :
    defContains (tryInsert m i kind) name = defContains m name := by
  unfold tryInsert
  by_cases he : i = ""
  · rw [if_pos he]
  · rw [if_neg he]
    simp [defContains, lookup_insertIfAbsent_other hne]

/-- Folding any map-transforming step that preserves a predicate preserves
the predicate. -/
theorem foldl_preserve {α : Type _} {P : DefMap → Prop} {f : DefMap → α → DefMap}
    (hf : ∀ m a, P m → P (f m a)) :
    ∀ (l : List α) (m : DefMap), P m → P (l.foldl f m) := by
  intro l
  induction l with
  | nil => intro m hm; exact hm
  | cons a l ih => intro m hm; exact ih _ (hf m a hm)

theorem collectLetBinding_preserve {P : DefMap → Prop}
    (hP : ∀ m i k, P m → P (tryInsert m i k)) :
    ∀ (m : DefMap) (v : LetBinding), P m → P (collectLetBinding m v) := by
  intro m v hm
  unfold collectLetBinding
  exact foldl_preserve (fun m i hm => hP m i _ hm) _ m hm

theorem collectModuleImport_preserve {P : DefMap → Prop}
    (hP : ∀ m i k, P m → P (tryInsert m i k)) :
    ∀ (w : World) (m : DefMap) (v : ModuleImport) (ch : List Node),
      P m → P (collectModuleImport w m v ch) := by
  intro w m v ch hm
  unfold collectModuleImport
  split
  · exact hm
  · split
    · split
      · exact hP m _ _ hm
      · exact hm
    · split
      · exact foldl_preserve (fun m p hm => hP m p.1 _ hm) _ m hm
      · exact hm

theorem collectNode_preserve {P : DefMap → Prop}
    (hP : ∀ m i k, P m → P (tryInsert m i k)) :
    ∀ (w : World) (m : DefMap) (n : Node), P m → P (collectNode w m n) := by
  intro w m n hm
  unfold collectNode
  cases n.data with
  | letBinding v =>
    exact collectLetBinding_preserve hP m v hm
  | moduleImport v =>
    exact collectModuleImport_preserve hP w m v n.children hm
  | forLoop v => exact hm
  | closure v => exact hm
  | plain k => exact hm

theorem collectForLoop_preserve {P : DefMap → Prop}
    (hP : ∀ m i k, P m → P (tryInsert m i k)) :
    ∀ (f : Frame) (m : DefMap), P m → P (collectForLoop f m) := by
  intro f m hm
  unfold collectForLoop
  split
  · split
    · exact foldl_preserve (fun m i hm => hP m i _ hm) _ m hm
    · exact hm
  · exact hm

theorem collectClosureParams_preserve {P : DefMap → Prop}
    (hP : ∀ m i k, P m → P (tryInsert m i k)) :
    ∀ (n : Node) (m : DefMap), P m → P (collectClosureParams n m) := by
  intro n m hm
  unfold collectClosureParams
  cases n.data with
  | closure c =>
    refine foldl_preserve ?_ _ m hm
    intro m p hm
    cases p with
    | pos pat => exact foldl_preserve (fun m i hm => hP m i _ hm) _ m hm
    | named nm => exact hP m nm _ hm
    | spread s =>
      cases s with
      | none => exact hm
      | some sink => exact hP m sink _ hm
  | letBinding v => exact hm
  | moduleImport v => exact hm
  | forLoop v => exact hm
  | plain k => exact hm

theorem ascent_preserve {P : DefMap → Prop}
    (hP : ∀ m i k, P m → P (tryInsert m i k)) :
    ∀ (w : World) (path : List Frame) (node : Node) (m : DefMap),
      P m → P (ascent w path node m) := by
  intro w path
  induction path with
  | nil =>
    intro node m hm
    exact collectNode_preserve hP w m node hm
  | cons f rest ih =>
    intro node m hm
    simp only [ascent]
    refine ih _ _ ?_
    refine collectClosureParams_preserve hP _ _ ?_
    refine collectForLoop_preserve hP _ _ ?_
    exact foldl_preserve (fun m n hm => collectNode_preserve hP w m n hm) _ m hm

theorem sorted_scopeDefined (w : World) (leaf : LinkedNode) :
    SortedKeys (scopeDefined w leaf) :=
  ascent_preserve (fun _ _ _ h => sorted_tryInsert h) w leaf.path leaf.node []
    List.Pairwise.nil

theorem lookup_eq_none_of_not_contains {m : DefMap} {nm : String}
    (h : defContains m nm = false) : defLookup m nm = none := by
  unfold defContains at h
  cases hl : defLookup m nm with
  | none => rfl
  | some k => rw [hl] at h; simp at h

/-- The identifiers bound by a closure's parameters, in parameter order. -/
def closureParamNames (c : Closure) : List String :=
  c.params.flatMap fun p => match p with
    | .pos pat => pat.bindings
    | .named n => [n]
    | .spread (some s) => [s]
    | .spread none => []

theorem foldl_flatMap {α β γ : Type _} (f : α → List β) (g : γ → β → γ) :
    ∀ (l : List α) (init : γ),
      (l.flatMap f).foldl g init = l.foldl (fun acc a => (f a).foldl g acc) init := by
  intro l
  induction l with
  | nil => intro init; rfl
  | cons a rest ih =>
    intro init
    rw [List.flatMap_cons, List.foldl_append, List.foldl_cons, ih]

theorem collectClosureParams_eq (c : Closure) (ch : List Node) (m : DefMap) :
    collectClosureParams (Node.mk (NodeData.closure c) ch) m
      = (closureParamNames c).foldl (fun m i => tryInsert m i CompletionKind.Variable) m := by
  unfold collectClosureParams closureParamNames
  rw [foldl_flatMap]
  show c.params.foldl _ m = c.params.foldl _ m
  congr 1
  funext m p
  cases p with
  | pos pat => rfl
  | named n => rfl
  | spread s => cases s with
    | none => rfl
    | some sink => rfl

theorem contains_foldl_tryInsert {nm : String} {kind : CompletionKind} (hnm : nm ≠ "") :
    ∀ (names : List String) (m : DefMap), nm ∈ names →
      defContains (names.foldl (fun m i => tryInsert m i kind) m) nm = true := by
  intro names
  induction names with
  | nil => intro m h; cases h
  | cons i rest ih =>
    intro m h
    simp only [List.foldl_cons]
    by_cases hi : nm ∈ rest
    · exact ih _ hi
    · have hieq : i = nm := by
        rcases List.mem_cons.mp h with h | h
        · exact h.symm
        · exact absurd h hi
      rw [hieq]
      exact foldl_preserve (P := fun m => defContains m nm = true)
        (fun m a hm => contains_tryInsert_mono hm) rest _
        (contains_tryInsert_self hnm)

theorem lookup_foldl_tryInsert_fresh {nm : String} {kind : CompletionKind} (hnm : nm ≠ "") :
    ∀ (names : List String) (m : DefMap), SortedKeys m → defContains m nm = false →
      nm ∈ names →
      defLookup (names.foldl (fun m i => tryInsert m i kind) m) nm = some kind := by
  intro names
  induction names with
  | nil => intro m _ _ h; cases h
  | cons i rest ih =>
    intro m hs hc h
    simp only [List.foldl_cons]
    by_cases hieq : i = nm
    · subst hieq
      have h1 : defLookup (tryInsert m i kind) i = some kind := by
        unfold tryInsert
        rw [if_neg hnm]
        exact lookup_insertIfAbsent_fresh (lookup_eq_none_of_not_contains hc)
      exact (foldl_preserve
        (P := fun m => SortedKeys m ∧ defLookup m i = some kind)
        (fun m a hm => ⟨sorted_tryInsert hm.1, lookup_tryInsert_present hm.1 hm.2⟩)
        rest _ ⟨sorted_tryInsert hs, h1⟩).2
    · have hmem : nm ∈ rest := by
        rcases List.mem_cons.mp h with h | h
        · exact absurd h.symm hieq
        · exact h
      refine ih (tryInsert m i kind) (sorted_tryInsert hs) ?_ hmem
      rw [contains_tryInsert_other (fun he => hieq he.symm)]
      exact hc

theorem foldl_step_append {α : Type _} {β : Type _} {step : List β → α → List β}
    {g : α → List β} (hstep : ∀ acc a, step acc a = acc ++ g a) :
    ∀ (l : List α) (init : List β), l.foldl step init = init ++ l.flatMap g := by
  intro l
  induction l with
  | nil => intro init; simp
  | cons a rest ih =>
    intro init
    simp only [List.foldl_cons, List.flatMap_cons]
    rw [hstep, ih, List.append_assoc]

theorem builtinEntries_eq_flatMap (ctx : CompletionContext)
    (scope : List (String × Value)) (parens : Bool) (filter : Value → Bool)
    (defined : DefMap) :
    builtinEntries ctx scope parens filter defined
      = scope.flatMap fun p =>
          if filter p.2 && !(defContains defined p.1) then
            ctx.valueCompletion (some p.1) p.2 parens none
          else [] := by
  unfold builtinEntries
  rw [foldl_step_append (g := fun p =>
      if filter p.2 && !(defContains defined p.1) then
        ctx.valueCompletion (some p.1) p.2 parens none
      else [])]
  · simp
  · intro acc p
    by_cases h : (filter p.2 && !(defContains defined p.1)) = true
    · rw [if_pos h, if_pos h]
    · rw [if_neg h, if_neg h]; simp

theorem definedEntries_eq_flatMap (defined : DefMap) :
    definedEntries defined
      = defined.flatMap fun p => if p.1 ≠ "" then [mkDefinedEntry p] else [] := by
  unfold definedEntries
  rw [foldl_step_append (g := fun p => if p.1 ≠ "" then [mkDefinedEntry p] else [])]
  · simp
  · intro acc p
    by_cases h : p.1 ≠ ""
    · rw [if_pos h, if_pos h]
    · rw [if_neg h, if_neg h]; simp

/-- The entries contributed by one named-parameter descriptor in the
`param_completions` loop. -/
def paramStepList (ctx : CompletionContext) (set : Bool) (exclude : List String)
    (p : String × ParamSpec) : List Completion :=
  if exclude.any fun i => i == p.1 then []
  else if set && !p.2.settable then []
  else (if p.2.named then [paramEntry ctx p.2] else [])
    ++ (if p.2.positional then ctx.castCompletions p.2.input else [])

theorem paramLoopEntries_eq_flatMap (ctx : CompletionContext) (set : Bool)
    (exclude : List String) (named : List (String × ParamSpec)) :
    paramLoopEntries ctx set exclude named
      = named.flatMap (paramStepList ctx set exclude) := by
  unfold paramLoopEntries
  rw [foldl_step_append (g := paramStepList ctx set exclude)]
  · simp
  · intro acc p
    unfold paramStepList
    by_cases h1 : (exclude.any fun i => i == p.1) = true
    · rw [if_pos h1, if_pos h1]; simp
    · rw [if_neg h1, if_neg h1]
      by_cases h2 : (set && !p.2.settable) = true
      · rw [if_pos h2, if_pos h2]; simp
      · rw [if_neg h2, if_neg h2]
        by_cases h3 : p.2.named = true
        · rw [if_pos h3, if_pos h3]
          by_cases h4 : p.2.positional = true
          · rw [if_pos h4, if_pos h4, List.append_assoc]
          · rw [if_neg h4, if_neg h4]; simp
        · rw [if_neg h3, if_neg h3]
          by_cases h4 : p.2.positional = true
          · rw [if_pos h4, if_pos h4]; simp
          · rw [if_neg h4, if_neg h4]; simp

theorem pairwise_flatMap_of {α β : Type _} {R : α → α → Prop} {S : β → β → Prop}
    {f : α → List β} (hone : ∀ a, List.Pairwise S (f a))
    (hrel : ∀ a b, R a b → ∀ x ∈ f a, ∀ y ∈ f b, S x y) :
    ∀ {l : List α}, List.Pairwise R l → List.Pairwise S (l.flatMap f) := by
  intro l hl
  induction hl with
  | nil => simp
  | @cons a l' hhead htail ih =>
    simp only [List.flatMap_cons]
    rw [List.pairwise_append]
    refine ⟨hone a, ih, ?_⟩
    intro x hx y hy
    obtain ⟨b, hb, hyb⟩ := List.mem_flatMap.mp hy
    exact hrel a b (hhead b hb) x hx y hyb

theorem mkDefinedEntry_label (p : String × CompletionKind) :
    (mkDefinedEntry p).label = p.1 := by
  unfold mkDefinedEntry
  split <;> rfl

theorem isMathKindOpt_true_iff (k : Option SyntaxKind) :
    isMathKindOpt k = true ↔
      (k = some SyntaxKind.Equation ∨ k = some SyntaxKind.Math ∨
       k = some SyntaxKind.MathFrac ∨ k = some SyntaxKind.MathAttach) := by
  rcases k with _ | sk
  · simp [isMathKindOpt]
  · cases sk <;> simp [isMathKindOpt]

/-! ### Concrete trees used in the scenario claims -/

/-- A plain identifier leaf. -/
def identLeaf : Node := .mk (.plain .Ident) []

/-- A semicolon token node. -/
def semiNode : Node := .mk (.plain .Semicolon) []

/-- A world whose import resolver always fails and whose builtin scopes are
empty. -/
def emptyWorld : World := ⟨fun _ => none, [], []⟩

/-- `#{ let x = 1; let x(a) = a; x }` with the cursor on the final `x`: two
declarations of `x` precede the cursor in the same scope, the nearer one a
function declaration. -/
def c1Leaf : LinkedNode :=
  ⟨identLeaf,
   [⟨[semiNode, Node.mk (.letBinding ⟨.closureKind "x"⟩) [],
      semiNode, Node.mk (.letBinding ⟨.normal ⟨["x"]⟩⟩) []],
     .plain .Code, []⟩]⟩

/-- C1: the Binding Collector is insert-only-if-absent — once a name is
recorded, a later discovery of the same name in the same ascent leaves the
recorded entry unchanged — and for a scope `let x = 1; let x(a) = a;` with
the cursor after both declarations the collected map holds exactly one
binding for `x`, of kind `Func`, the kind of the textually later
declaration, because the sibling loop visits nearer preceding siblings
first. -/
theorem c1_first_write_wins :
    (∀ (m : DefMap), SortedKeys m →
      ∀ (name : String) (kind : CompletionKind) (name' : String)
        (kind' : CompletionKind),
        defLookup m name = some kind →
        defLookup (tryInsert m name' kind') name = some kind)
    ∧ scopeDefined emptyWorld c1Leaf = [("x", CompletionKind.Func)] := by
  constructor
  · intro m hs name kind name' kind' h
    exact lookup_tryInsert_present hs h
  · decide

/-- Witness for C1 at a concrete map: `x ↦ Variable` survives a later
`tryInsert` of `x ↦ Func`. -/
theorem c1_first_write_wins_witness :
    defLookup (tryInsert [("x", CompletionKind.Variable)] "x" CompletionKind.Func) "x"
      = some CompletionKind.Variable :=
  c1_first_write_wins.1 [("x", CompletionKind.Variable)]
    (List.pairwise_singleton _ _) "x" CompletionKind.Variable "x"
    CompletionKind.Func (by decide)

/-- Follows the C2 claim's words, not the source: the closure check fires
when the current ancestor's PARENT is the closure node (`f.data`), rather
than when the ancestor itself casts to a closure. Declared only to compare
with `collectClosureParams`. -/
def collectClosureParamsOfParent (f : Frame) (m : DefMap) : DefMap :=
  match f.data with
  | .closure c =>
    c.params.foldl (fun m p =>
      match p with
      | .pos pat => pat.bindings.foldl (fun m i => tryInsert m i .Variable) m
      | .named n => tryInsert m n .Variable
      | .spread (some sink) => tryInsert m sink .Variable
      | .spread none => m) m
  | _ => m

/-- The ascent as the C2 claim words it: identical to `ascent` except that
the closure check targets the ancestor's parent. Declared only for
comparison with `ascent`. -/
def ascentClaimC2 (w : World) : List Frame → Node → DefMap → DefMap
  | [], node, m => collectNode w m node
  | f :: rest, node, m =>
    let m := (node :: f.before).foldl (collectNode w) m
    let m := collectForLoop f m
    let m := collectClosureParamsOfParent f m
    ascentClaimC2 w rest (parentNode f node) m

/-- The closure `(x) => ...` of the C2 scenario, with one positional
parameter `x`. -/
def c2Closure : Closure := ⟨[.pos ⟨["x"]⟩]⟩

/-- `#{ let x(a) = a; (x) => x }` with the cursor on the closure body `x`:
the cursor leaf's parent is the closure, and the closure's previous sibling
(one trivia-free step past the semicolon) declares `x` as a function. -/
def c2Leaf : LinkedNode :=
  ⟨identLeaf,
   [⟨[Node.mk (.plain .Params) []], .closure c2Closure, []⟩,
    ⟨[semiNode, Node.mk (.letBinding ⟨.closureKind "x"⟩) []], .plain .Code, []⟩]⟩

/-- C2 counterexample: at `c2Leaf` the current ancestor's parent is a
closure whose parameter list binds `x`, yet the collected map binds `x` to
`Func` — not `Variable` — because the code's closure check fires one
ascent step later, when the ancestor itself is the closure, after the
sibling walk at the closure's level has already recorded the preceding
`let x(a) = a`; a collector that follows the claim's wording instead yields
`x ↦ Variable`. -/
theorem c2_closure_param_counterexample :
    c2Leaf.parentKind = some SyntaxKind.Closure
    ∧ "x" ∈ closureParamNames c2Closure
    ∧ scopeDefined emptyWorld c2Leaf = [("x", CompletionKind.Func)]
    ∧ ascentClaimC2 emptyWorld c2Leaf.path c2Leaf.node []
      = [("x", CompletionKind.Variable)]
    ∧ defLookup (scopeDefined emptyWorld c2Leaf) "x" ≠ some CompletionKind.Variable := by
  decide

/-- C2 (amended): whenever the current ancestor is itself a
closure/function-literal node and the ascent continues past it (a parent
frame exists), every non-empty parameter identifier of that closure —
positional-pattern identifiers, named-parameter names, and the spread sink
when present — is try-inserted with kind `Variable`: the name is present in
the final collected map, and the closure check records it as `Variable`
whenever it was not already recorded. -/
theorem c2_closure_params_recorded :
    (∀ (w : World) (f : Frame) (rest : List Frame) (c : Closure)
        (ch : List Node) (m : DefMap) (nm : String),
        nm ∈ closureParamNames c → nm ≠ "" →
        defContains (ascent w (f :: rest) (Node.mk (NodeData.closure c) ch) m) nm
          = true)
    ∧ (∀ (n : Node) (c : Closure) (m : DefMap) (nm : String),
        n.data = NodeData.closure c → nm ∈ closureParamNames c → nm ≠ "" →
        SortedKeys m → defContains m nm = false →
        defLookup (collectClosureParams n m) nm = some CompletionKind.Variable) := by
  constructor
  · intro w f rest c ch m nm hmem hne
    simp only [ascent]
    refine ascent_preserve (P := fun m => defContains m nm = true)
      (fun m i k h => contains_tryInsert_mono h) w rest _ _ ?_
    rw [collectClosureParams_eq]
    exact contains_foldl_tryInsert hne _ _ hmem
  · intro n c m nm hd hmem hne hs hc
    obtain ⟨d, ch⟩ := n
    obtain rfl : d = NodeData.closure c := hd
    rw [collectClosureParams_eq]
    exact lookup_foldl_tryInsert_fresh hne _ _ hs hc hmem

/-- Witness for the amended C2 at concrete inputs: the parameter `x` of the
closure `(x) => ...` is contained in the ascended map and, starting from an
empty map, is recorded as `Variable`. -/
theorem c2_closure_params_recorded_witness :
    defContains (ascent emptyWorld [⟨[], NodeData.plain SyntaxKind.Code, []⟩]
      (Node.mk (NodeData.closure c2Closure) []) []) "x" = true
    ∧ defLookup (collectClosureParams (Node.mk (NodeData.closure c2Closure) []) []) "x"
      = some CompletionKind.Variable :=
  ⟨c2_closure_params_recorded.1 emptyWorld ⟨[], NodeData.plain SyntaxKind.Code, []⟩
      [] c2Closure [] [] "x" (by decide) (by decide),
   c2_closure_params_recorded.2 (Node.mk (NodeData.closure c2Closure) []) c2Closure
      [] "x" rfl (by decide) (by decide) List.Pairwise.nil (by decide)⟩

/-- The for loop `for x in x { }` of the C3 scenario. -/
def c3For : ForLoop := ⟨⟨["x"]⟩⟩

/-- `for x in x { }` with the cursor inside the iterable `x` (the second
occurrence): the ancestor's immediately preceding sibling is the `in`
keyword. -/
def c3IterCursor : LinkedNode :=
  ⟨identLeaf,
   [⟨[Node.mk (.plain .In) [], identLeaf, Node.mk (.plain .For) []],
     .forLoop c3For, [Node.mk (.plain .CodeBlock) []]⟩]⟩

/-- `for x in x { }` with the cursor inside the loop body: the body block's
preceding sibling is the iterable, not the `in` keyword. -/
def c3BodyCursor : LinkedNode :=
  ⟨identLeaf,
   [⟨[], .plain .CodeBlock, []⟩,
    ⟨[identLeaf, Node.mk (.plain .In) [], identLeaf, Node.mk (.plain .For) []],
     .forLoop c3For, []⟩]⟩

/-- C3: for `for x in x { }` the Binding Collector run from a cursor inside
the iterable records no binding at all (in particular none for the loop
pattern's `x`), while the collector run from a cursor inside the loop body
records the pattern's `x` with kind `Variable`. -/
theorem c3_loop_variable_exclusion :
    scopeDefined emptyWorld c3IterCursor = []
    ∧ scopeDefined emptyWorld c3BodyCursor = [("x", CompletionKind.Variable)] := by
  decide

/-- `#{ let calc = 1; c }` with the cursor after the declaration: the user
binding `calc` shadows the builtin of the same name. -/
def c4Leaf : LinkedNode :=
  ⟨identLeaf,
   [⟨[semiNode, Node.mk (.letBinding ⟨.normal ⟨["calc"]⟩⟩) []], .plain .Code, []⟩]⟩

/-- A world whose general builtin scope contains a value named `calc`. -/
def c4World : World := ⟨fun _ => none, [], [("calc", Value.int 7)]⟩

/-- The completion context of the C4 shadowing scenario; its value-derived
completion collaborator emits one `Constant` entry labelled with the
builtin's name. -/
def c4Ctx : CompletionContext :=
  { leaf := c4Leaf
    world := c4World
    before := ""
    completions := []
    valueCompletion := fun n _ _ _ =>
      [{ kind := .Constant, label := n.getD "", apply := none, detail := none,
         command := none }]
    resolveCallee := fun _ => none
    analyzeDynSignature := fun _ => ⟨⟨[]⟩⟩
    castCompletions := fun _ => []
    fontCompletions := []
    plainDocsSentence := fun s => s }

/-- C4: a builtin-scope entry `(name, value)` contributes its value-derived
completion entries exactly when the caller-supplied predicate accepts the
value and the name is not among the collected local bindings — every other
pair contributes the empty list — and in the concrete shadowing scenario
(`let calc = 1` against a builtin named `calc`) the assembled output
contains only the user binding's `Variable` entry, no builtin-derived
entry. -/
theorem c4_builtin_shadowing :
    (∀ (ctx : CompletionContext) (scope : List (String × Value)) (parens : Bool)
        (filter : Value → Bool) (defined : DefMap),
        builtinEntries ctx scope parens filter defined
          = scope.flatMap fun p =>
              if filter p.2 && !(defContains defined p.1) then
                ctx.valueCompletion (some p.1) p.2 parens none
              else [])
    ∧ (scope_completions_ c4Ctx false (fun _ => true)).completions
      = [{ kind := CompletionKind.Variable, label := "calc", apply := none,
           detail := none, command := none }] := by
  constructor
  · intro ctx scope parens filter defined
    exact builtinEntries_eq_flatMap ctx scope parens filter defined
  · decide

/-- C5 concrete signature: two named parameters `a` and `b`, both settable,
neither positional. -/
def c5ParamA : ParamSpec :=
  { name := "a", docs := "", positional := false, named := true,
    settable := true, expr := none, input := ⟨0⟩ }

/-- The second named parameter of the C5 scenario. -/
def c5ParamB : ParamSpec :=
  { name := "b", docs := "", positional := false, named := true,
    settable := true, expr := none, input := ⟨1⟩ }

/-- The completion context of the C5 scenario: the callee resolves and its
signature is `(a, b)`. -/
def c5Ctx : CompletionContext :=
  { leaf := ⟨identLeaf, []⟩
    world := emptyWorld
    before := ""
    completions := []
    valueCompletion := fun _ _ _ _ => []
    resolveCallee := fun _ => some (Func.base 0)
    analyzeDynSignature := fun _ => ⟨⟨[("a", c5ParamA), ("b", c5ParamB)]⟩⟩
    castCompletions := fun _ => []
    fontCompletions := []
    plainDocsSentence := fun s => s }

/-- C5: a named-parameter descriptor anywhere in the signature's collection
contributes its `Parameter`-kind entry exactly when it is named, its key is
not among the named arguments already present in the call, and it is not
the case that the call is in set context while the parameter is not
settable (the positional delegation to the value suggester is gated the
same way); and on successful callee resolution the engine's output is the
previous buffer plus exactly the loop's entries, enriched by the
trailing-space aid when the text before the cursor ends with a comma. -/
theorem c5_param_filtering :
    (∀ (ctx : CompletionContext) (set : Bool) (args : Args)
        (l₁ l₂ : List (String × ParamSpec)) (name : String) (p : ParamSpec),
        paramLoopEntries ctx set (excludedNames args) (l₁ ++ (name, p) :: l₂)
          = paramLoopEntries ctx set (excludedNames args) l₁
            ++ (if p.named = true ∧ name ∉ excludedNames args
                  ∧ ¬(set = true ∧ p.settable = false)
                then [paramEntry ctx p] else [])
            ++ (if p.positional = true ∧ name ∉ excludedNames args
                  ∧ ¬(set = true ∧ p.settable = false)
                then ctx.castCompletions p.input else [])
            ++ paramLoopEntries ctx set (excludedNames args) l₂)
    ∧ (∀ (ctx : CompletionContext) (callee : Node) (set : Bool) (args : Args)
        (f : Func), ctx.resolveCallee callee = some f →
        (param_completions ctx callee set args).completions
          = (if ctx.before.endsWith "," then enrichList " " "" else id)
              (ctx.completions ++ paramLoopEntries ctx set (excludedNames args)
                ((ctx.analyzeDynSignature (unwrapFunc f)).primary.named))) := by
  constructor
  · intro ctx set args l₁ l₂ name p
    have hstep : paramStepList ctx set (excludedNames args) (name, p)
        = (if p.named = true ∧ name ∉ excludedNames args
             ∧ ¬(set = true ∧ p.settable = false)
           then [paramEntry ctx p] else [])
          ++ (if p.positional = true ∧ name ∉ excludedNames args
                ∧ ¬(set = true ∧ p.settable = false)
              then ctx.castCompletions p.input else []) := by
      by_cases h1 : name ∈ excludedNames args <;>
        by_cases h2 : set = true ∧ p.settable = false <;>
        by_cases h3 : p.named = true <;>
        by_cases h4 : p.positional = true <;>
        simp [paramStepList, h1, h2, h3, h4, List.any_eq_true,
          Bool.and_eq_true, Bool.not_eq_true']
    rw [paramLoopEntries_eq_flatMap, paramLoopEntries_eq_flatMap,
      paramLoopEntries_eq_flatMap, List.flatMap_append, List.flatMap_cons, hstep]
    simp [List.append_assoc]
  · intro ctx callee set args f hres
    simp only [param_completions, hres]
    simp only [paramCompletionsResolved]
    by_cases h : ctx.before.endsWith ","
    · simp [h]
    · simp [h]

/-- Witness for C5 at the spec's `f(a: 1, ‹cursor›)` example: the engine's
output on the concrete context equals the loop characterization. -/
theorem c5_param_filtering_witness :
    (param_completions c5Ctx identLeaf false ⟨[Arg.named "a"]⟩).completions
      = (if c5Ctx.before.endsWith "," then enrichList " " "" else id)
          (c5Ctx.completions ++ paramLoopEntries c5Ctx false
            (excludedNames ⟨[Arg.named "a"]⟩)
            ((c5Ctx.analyzeDynSignature (unwrapFunc (Func.base 0))).primary.named)) :=
  c5_param_filtering.2 c5Ctx identLeaf false ⟨[Arg.named "a"]⟩ (Func.base 0) rfl

theorem unwrapFunc_idem (f : Func) : unwrapFunc (unwrapFunc f) = unwrapFunc f := by
  induction f with
  | base i => rfl
  | withF g ih => simpa [unwrapFunc] using ih

/-- C6: both engines peel every partial-application wrapper before
signature introspection: a `withF` layer on the resolved function never
changes either engine's output, and every function behaves exactly as its
fully unwrapped base. -/
theorem c6_with_unwrapping :
    (∀ (ctx : CompletionContext) (set : Bool) (args : Args) (f : Func),
        paramCompletionsResolved ctx (Func.withF f) set args
          = paramCompletionsResolved ctx f set args)
    ∧ (∀ (ctx : CompletionContext) (name : String) (f : Func),
        namedParamValueResolved ctx (Func.withF f) name
          = namedParamValueResolved ctx f name)
    ∧ (∀ (ctx : CompletionContext) (set : Bool) (args : Args) (f : Func),
        paramCompletionsResolved ctx f set args
          = paramCompletionsResolved ctx (unwrapFunc f) set args)
    ∧ (∀ (ctx : CompletionContext) (name : String) (f : Func),
        namedParamValueResolved ctx f name
          = namedParamValueResolved ctx (unwrapFunc f) name) := by
  refine ⟨fun ctx set args f => ?_, fun ctx name f => ?_,
    fun ctx set args f => ?_, fun ctx name f => ?_⟩
  · simp only [paramCompletionsResolved, unwrapFunc]
  · simp only [namedParamValueResolved, unwrapFunc]
  · simp only [paramCompletionsResolved, unwrapFunc_idem]
  · simp only [namedParamValueResolved, unwrapFunc_idem]

/-- `#{ import "missing.typ": a; let y = 1; c }` with a failing import
resolver: the import contributes nothing, the later `let y` still binds. -/
def c7Leaf : LinkedNode :=
  ⟨identLeaf,
   [⟨[semiNode, Node.mk (.letBinding ⟨.normal ⟨["y"]⟩⟩) [], semiNode,
      Node.mk (.moduleImport ⟨some .items⟩) [Node.mk (.plain .Str) []]],
     .plain .Code, []⟩]⟩

/-- A completion context whose callee resolver always fails. -/
def c7Ctx : CompletionContext :=
  { leaf := ⟨identLeaf, []⟩
    world := emptyWorld
    before := ""
    completions := []
    valueCompletion := fun _ _ _ _ => []
    resolveCallee := fun _ => none
    analyzeDynSignature := fun _ => ⟨⟨[]⟩⟩
    castCompletions := fun _ => []
    fontCompletions := []
    plainDocsSentence := fun s => s }

/-- C7: unresolvable references are absorbed locally: a failed import
resolution records no binding while the ascent still returns the bindings
of the other sources (concretely, `y` survives a dead import); an
unresolvable callee makes both engines return the context — in particular
the completion buffer — unchanged; and a named parameter that is absent
from the signature, or present but not named, makes the named-value engine
return the context unchanged. -/
theorem c7_silent_miss :
    (∀ (w : World) (m : DefMap) (v : ModuleImport) (ch : List Node),
        (ch.find? fun c => c.kind.isExpr).bind w.analyzeImport = none →
        collectModuleImport w m v ch = m)
    ∧ scopeDefined emptyWorld c7Leaf = [("y", CompletionKind.Variable)]
    ∧ (∀ (ctx : CompletionContext) (callee : Node) (set : Bool) (args : Args),
        ctx.resolveCallee callee = none →
        param_completions ctx callee set args = ctx)
    ∧ (∀ (ctx : CompletionContext) (callee : Node) (nm : String),
        ctx.resolveCallee callee = none →
        named_param_value_completions ctx callee nm = ctx)
    ∧ (∀ (ctx : CompletionContext) (callee : Node) (nm : String) (f : Func),
        ctx.resolveCallee callee = some f →
        namedGet ((ctx.analyzeDynSignature (unwrapFunc f)).primary.named) nm = none →
        named_param_value_completions ctx callee nm = ctx)
    ∧ (∀ (ctx : CompletionContext) (callee : Node) (nm : String) (f : Func)
        (p : ParamSpec),
        ctx.resolveCallee callee = some f →
        namedGet ((ctx.analyzeDynSignature (unwrapFunc f)).primary.named) nm = some p →
        p.named = false →
        named_param_value_completions ctx callee nm = ctx) := by
  refine ⟨?_, by decide, ?_, ?_, ?_, ?_⟩
  · intro w m v ch h
    unfold collectModuleImport
    rw [h]
  · intro ctx callee set args h
    simp only [param_completions, h]
  · intro ctx callee nm h
    simp only [named_param_value_completions, h]
  · intro ctx callee nm f hres hget
    simp only [named_param_value_completions, hres, namedParamValueResolved, hget]
  · intro ctx callee nm f p hres hget hnamed
    simp only [named_param_value_completions, hres, namedParamValueResolved, hget,
      hnamed]
    simp

/-- Witness for C7 at concrete inputs: a dead import leaves the map alone,
and both engines leave the context of an unresolvable callee alone. -/
theorem c7_silent_miss_witness :
    collectModuleImport emptyWorld [] ⟨none⟩ [] = []
    ∧ param_completions c7Ctx identLeaf false ⟨[]⟩ = c7Ctx
    ∧ named_param_value_completions c7Ctx identLeaf "font" = c7Ctx :=
  ⟨c7_silent_miss.1 emptyWorld [] ⟨none⟩ [] rfl,
   c7_silent_miss.2.2.1 c7Ctx identLeaf false ⟨[]⟩ rfl,
   c7_silent_miss.2.2.2.1 c7Ctx identLeaf "font" rfl⟩

/-- C8: the Completion Assembler draws the builtin entries from the math
builtin scope exactly when the cursor's parent kind is one of the
specialized math sub-tree kinds, and from the general scope otherwise —
in both cases regardless of the collected local bindings, which enter the
output only through the shadowing filter and the local-entry segment. -/
theorem c8_math_scope_selection :
    ∀ (ctx : CompletionContext) (parens : Bool) (filter : Value → Bool),
      ((ctx.leaf.parentKind = some SyntaxKind.Equation
          ∨ ctx.leaf.parentKind = some SyntaxKind.Math
          ∨ ctx.leaf.parentKind = some SyntaxKind.MathFrac
          ∨ ctx.leaf.parentKind = some SyntaxKind.MathAttach) →
        scope_completions_ ctx parens filter
          = { ctx with
              completions := ctx.completions
                ++ builtinEntries ctx ctx.world.mathScope parens filter
                    (scopeDefined ctx.world ctx.leaf)
                ++ definedEntries (scopeDefined ctx.world ctx.leaf) })
      ∧ (¬(ctx.leaf.parentKind = some SyntaxKind.Equation
            ∨ ctx.leaf.parentKind = some SyntaxKind.Math
            ∨ ctx.leaf.parentKind = some SyntaxKind.MathFrac
            ∨ ctx.leaf.parentKind = some SyntaxKind.MathAttach) →
        scope_completions_ ctx parens filter
          = { ctx with
              completions := ctx.completions
                ++ builtinEntries ctx ctx.world.globalScope parens filter
                    (scopeDefined ctx.world ctx.leaf)
                ++ definedEntries (scopeDefined ctx.world ctx.leaf) }) := by
  intro ctx parens filter
  constructor
  · intro h
    have hb : isMathKindOpt ctx.leaf.parentKind = true :=
      (isMathKindOpt_true_iff _).mpr h
    simp [scope_completions_, hb]
  · intro h
    have hb : isMathKindOpt ctx.leaf.parentKind = false := by
      cases hcase : isMathKindOpt ctx.leaf.parentKind
      · rfl
      · exact absurd ((isMathKindOpt_true_iff _).mp hcase) h
    simp [scope_completions_, hb]

/-- A cursor whose parent node is a math node. -/
def c8MathLeaf : LinkedNode := ⟨identLeaf, [⟨[], .plain .Math, []⟩]⟩

/-- The completion context of the C8 scenario: distinct math and general
builtin scopes, no local bindings. -/
def c8Ctx : CompletionContext :=
  { leaf := c8MathLeaf
    world := ⟨fun _ => none, [("sin", Value.int 1)], [("calc", Value.int 2)]⟩
    before := ""
    completions := []
    valueCompletion := fun n _ _ _ =>
      [{ kind := .Constant, label := n.getD "", apply := none, detail := none,
         command := none }]
    resolveCallee := fun _ => none
    analyzeDynSignature := fun _ => ⟨⟨[]⟩⟩
    castCompletions := fun _ => []
    fontCompletions := []
    plainDocsSentence := fun s => s }

/-- Witness for C8: with the cursor inside a math node and no local
bindings, the assembler draws from the math builtin scope. -/
theorem c8_math_scope_selection_witness :
    scope_completions_ c8Ctx false (fun _ => true)
      = { c8Ctx with
          completions := c8Ctx.completions
            ++ builtinEntries c8Ctx c8Ctx.world.mathScope false (fun _ => true)
                (scopeDefined c8Ctx.world c8Ctx.leaf)
            ++ definedEntries (scopeDefined c8Ctx.world c8Ctx.leaf) } :=
  (c8_math_scope_selection c8Ctx false (fun _ => true)).1 (Or.inr (Or.inl rfl))

/-- C9: on every successful named-parameter lookup the named-value engine
appends, in order: exactly one `Constant`-kind entry labelled with the
example expression's literal text and detailed with the parameter's
plain-sentence docs when the descriptor carries an example (and no such
entry otherwise), then the type-directed value suggester's output for the
descriptor's input type, then the font enumerator's output for the
reserved font name, the whole enriched by the trailing-space aid after a
colon. -/
theorem c9_named_value_entries :
    ∀ (ctx : CompletionContext) (callee : Node) (nm : String) (f : Func)
      (p : ParamSpec),
      ctx.resolveCallee callee = some f →
      namedGet ((ctx.analyzeDynSignature (unwrapFunc f)).primary.named) nm = some p →
      p.named = true →
      ((∀ e, p.expr = some e →
          (named_param_value_completions ctx callee nm).completions
            = (if ctx.before.endsWith ":" then enrichList " " "" else id)
                (ctx.completions
                  ++ [{ kind := CompletionKind.Constant, label := e, apply := none,
                        detail := some (ctx.plainDocsSentence p.docs),
                        command := none }]
                  ++ ctx.castCompletions p.input
                  ++ (if nm == "font" then ctx.fontCompletions else [])))
        ∧ (p.expr = none →
          (named_param_value_completions ctx callee nm).completions
            = (if ctx.before.endsWith ":" then enrichList " " "" else id)
                (ctx.completions
                  ++ ctx.castCompletions p.input
                  ++ (if nm == "font" then ctx.fontCompletions else [])))) := by
  intro ctx callee nm f p hres hget hnamed
  constructor
  · intro e he
    simp only [named_param_value_completions, hres, namedParamValueResolved, hget,
      hnamed, he]
    by_cases h : ctx.before.endsWith ":"
    · simp [h]
    · simp [h]
  · intro he
    simp only [named_param_value_completions, hres, namedParamValueResolved, hget,
      hnamed, he]
    by_cases h : ctx.before.endsWith ":"
    · simp [h]
    · simp [h]

/-- The named parameter of the C9 scenario, carrying an example
expression. -/
def c9Param : ParamSpec :=
  { name := "margin", docs := "the margin", positional := false, named := true,
    settable := true, expr := some "1pt", input := ⟨2⟩ }

/-- The completion context of the C9 scenario. -/
def c9Ctx : CompletionContext :=
  { leaf := ⟨identLeaf, []⟩
    world := emptyWorld
    before := ""
    completions := []
    valueCompletion := fun _ _ _ _ => []
    resolveCallee := fun _ => some (Func.base 0)
    analyzeDynSignature := fun _ => ⟨⟨[("margin", c9Param)]⟩⟩
    castCompletions := fun _ =>
      [{ kind := .Constant, label := "2pt", apply := none, detail := none,
         command := none }]
    fontCompletions := []
    plainDocsSentence := fun s => s }

/-- Witness for C9 at a concrete margin parameter with example `1pt`. -/
theorem c9_named_value_entries_witness :
    (named_param_value_completions c9Ctx identLeaf "margin").completions
      = (if c9Ctx.before.endsWith ":" then enrichList " " "" else id)
          (c9Ctx.completions
            ++ [{ kind := CompletionKind.Constant, label := "1pt", apply := none,
                  detail := some (c9Ctx.plainDocsSentence c9Param.docs),
                  command := none }]
            ++ c9Ctx.castCompletions c9Param.input
            ++ (if "margin" == "font" then c9Ctx.fontCompletions else [])) :=
  (c9_named_value_entries c9Ctx identLeaf "margin" (Func.base 0) c9Param rfl rfl
    rfl).1 "1pt" rfl

/-- C10: within one `scope_completions_` call the output appends, after the
caller's existing buffer, first every builtin-scope entry and then the
local-binding entries, and the local-binding entries are pairwise strictly
increasing in label (the sorted-map iteration order), independently of the
order in which the ascent discovered the bindings. -/
theorem c10_emission_order :
    ∀ (ctx : CompletionContext) (parens : Bool) (filter : Value → Bool),
      (scope_completions_ ctx parens filter).completions
        = ctx.completions
          ++ builtinEntries ctx
              (if isMathKindOpt ctx.leaf.parentKind then ctx.world.mathScope
               else ctx.world.globalScope) parens filter
              (scopeDefined ctx.world ctx.leaf)
          ++ definedEntries (scopeDefined ctx.world ctx.leaf)
      ∧ List.Pairwise (fun a b => a.label < b.label)
          (definedEntries (scopeDefined ctx.world ctx.leaf)) := by
  intro ctx parens filter
  constructor
  · rfl
  · rw [definedEntries_eq_flatMap]
    refine pairwise_flatMap_of ?_ ?_ (sorted_scopeDefined ctx.world ctx.leaf)
    · intro a
      split
      · exact List.pairwise_singleton _ _
      · exact List.Pairwise.nil
    · intro a b hab x hx y hy
      have hx' : x = mkDefinedEntry a := by
        revert hx
        split
        · simp only [List.mem_singleton]
          exact id
        · intro hx
          cases hx
      have hy' : y = mkDefinedEntry b := by
        revert hy
        split
        · simp only [List.mem_singleton]
          exact id
        · intro hy
          cases hy
      rw [hx', hy', mkDefinedEntry_label, mkDefinedEntry_label]
      exact hab

end TinyComplete
